import Mathlib

/-
Verification of the LLE Morphology v2 engine (packages/llex-morpho/src/morphology.v2.ts,
given here as src/unnamed/part_003), the dataset-layer BIO encoder
(packages/llex-dataset/src/build_jsonl.ts, buildSegmentationDataset) and the demo
BIO encoder (demo_fixes.ts, spanToTag / toBIO).

Shallow embedding conventions:
  - JS strings are modelled as List Char; the normalized word is the result of
    toLowerCase().trim(), modelled with Char.toLower (ASCII case mapping, which is all
    the affix tables use) and trimming of ASCII whitespace.
  - The two greedy while-loops of morpho are modelled as fuel-indexed structural
    recursions; morpho passes fuel word.length + 1, and the development proves that any
    fuel above word.length gives the same answer (the loop halts within the budget).
  - JS numbers that hold small nonnegative integers become Nat; the guard
    startIdx > consumedStart + 1 (with startIdx = consumedEnd - suf.length possibly
    negative in JS) is written in the subtraction-free form
    consumedStart + 1 + suf.length < consumedEnd, which is equivalent over the integers.
  - confidence = 1 / (1 + complexity) is modelled in the rationals.
  - Array writes labels[i] = v in the encoders become List.set; for the dataset encoder
    all written indices are proved to lie below the list length (spans_stop_le below), so
    List.set (a no-op out of range) agrees with the JS assignment; the demo encoder
    clips its writes to the word length in the JS source itself.
-/

namespace LLE

/-- Morpheme type: the source uses the strings "prefix" / "root" / "suffix";
the first constructor is abbreviated pref here. -/
inductive MType where
  | pref
  | root
  | suffix
deriving DecidableEq, Repr

/-- Morpheme record of morphology.v2.ts; the source field named end is called stop here
because end is a Lean keyword. -/
structure Morpheme where
  type : MType
  text : List Char
  start : Nat
  stop : Nat
deriving DecidableEq, Repr

/-- Result record of morpho (morphology.v2.ts). -/
structure MResult where
  original : List Char
  word : List Char
  prefixes : List (List Char)
  root : List Char
  suffixes : List (List Char)
  morphemes : List Morpheme
  complexity : Nat
  confidence : ℚ
deriving DecidableEq, Repr

/-- morphemePatterns.prefixes, in declaration order (morphology.v2.ts lines 5-8). -/
def prefixes : List (List Char) :=
  ["counter".toList, "inter".toList, "trans".toList, "pseudo".toList, "proto".toList,
   "super".toList, "multi".toList, "under".toList, "over".toList,
   "anti".toList, "auto".toList, "micro".toList, "macro".toList, "semi".toList,
   "sub".toList, "pre".toList, "re".toList, "un".toList, "dis".toList, "out".toList,
   "up".toList, "down".toList]

/-- morphemePatterns.suffixes, in declaration order (morphology.v2.ts lines 9-15). -/
def suffixes : List (List Char) :=
  ["ization".toList, "ational".toList, "acious".toList, "ically".toList,
   "fulness".toList, "lessly".toList, "ations".toList,
   "ability".toList, "ation".toList, "sion".toList, "ness".toList, "ment".toList,
   "able".toList, "ible".toList, "ward".toList, "wise".toList, "ship".toList,
   "hood".toList, "dom".toList, "ism".toList, "ist".toList,
   "ize".toList, "ise".toList, "fy".toList, "ate".toList, "ent".toList, "ant".toList,
   "ive".toList, "ous".toList, "eous".toList, "ious".toList, "al".toList, "ic".toList,
   "ical".toList, "ar".toList, "ary".toList,
   "ing".toList, "ed".toList, "er".toList, "est".toList, "ly".toList, "s".toList]

/-- Stable insertion of x into a list sorted by descending length: x is placed before the
first element whose length is less than or equal to its own, so among equal lengths
earlier-inserted (later-declared) elements stay behind x. -/
def orderedInsertDesc (x : List Char) : List (List Char) → List (List Char)
  | [] => [x]
  | y :: ys => if y.length ≤ x.length then x :: y :: ys else y :: orderedInsertDesc x ys

/-- Stable sort by descending length, the embedding of
[...table].sort((a, b) => b.length - a.length) (Array.prototype.sort is stable). -/
def sortDesc : List (List Char) → List (List Char)
  | [] => []
  | x :: xs => orderedInsertDesc x (sortDesc xs)

/-- const prefixes = [...morphemePatterns.prefixes].sort((a,b) => b.length - a.length). -/
def sortedPrefixes : List (List Char) := sortDesc prefixes

/-- const suffixes = [...morphemePatterns.suffixes].sort((a,b) => b.length - a.length). -/
def sortedSuffixes : List (List Char) := sortDesc suffixes

/-- word.slice(a, b) for 0 <= a (JS slice on in-range indices). -/
def sliceList (w : List Char) (a b : Nat) : List Char := (w.drop a).take (b - a)

/-- JS whitespace characters removed by String.prototype.trim (ASCII portion; the affix
tables and all claims are ASCII-only). -/
def jsWhitespace (c : Char) : Bool :=
  c == ' ' || c == '\t' || c == '\n' || c == '\r' || c == '\x0b' || c == '\x0c'

/-- word = original.toLowerCase().trim() (morphology.v2.ts line 44). -/
def normalize (input : List Char) : List Char :=
  ((((input.map Char.toLower).dropWhile jsWhitespace).reverse.dropWhile jsWhitespace).reverse)

/-- word.startsWith(pre, pos). -/
def matchesPrefixAt (w : List Char) (pos : Nat) (p : List Char) : Bool :=
  p.isPrefixOf (w.drop pos)

/-- One scan of the sorted prefix table from the top: the body of the for-loop in the
prefix phase (morphology.v2.ts lines 55-62) returns the first table entry that matches
at the cursor. -/
def findPrefixAt (w : List Char) (pos : Nat) : Option (List Char) :=
  sortedPrefixes.find? (matchesPrefixAt w pos)

/-- The acceptance test of the suffix phase (morphology.v2.ts line 74):
startIdx > consumedStart + 1 && word.slice(startIdx, consumedEnd) === suf,
with startIdx = consumedEnd - suf.length, written subtraction-free. -/
def suffixAccept (w : List Char) (st ep : Nat) (s : List Char) : Bool :=
  decide (st + 1 + s.length < ep) && (sliceList w (ep - s.length) ep == s)

/-- One scan of the sorted suffix table from the top (morphology.v2.ts lines 71-79). -/
def findSuffixAt (w : List Char) (st ep : Nat) : Option (List Char) :=
  sortedSuffixes.find? (suffixAccept w st ep)

/-- The prefix-phase while-loop (morphology.v2.ts lines 53-63): repeatedly take the first
matching table entry and advance the cursor.  Fuel-indexed; morpho passes
word.length + 1, enough for the loop to reach its exit (proved below). -/
def stripPrefixes (w : List Char) : Nat → Nat → List (List Char) × Nat
  | 0, pos => ([], pos)
  | Nat.succ f, pos =>
    match findPrefixAt w pos with
    | none => ([], pos)
    | some p =>
      let r := stripPrefixes w f (pos + p.length)
      (p :: r.1, r.2)

/-- The suffix-phase while-loop (morphology.v2.ts lines 69-81).  Each accepted suffix is
unshifted onto the front of foundSuffixes in the source, so the recursion appends the
currently found (rightmost) suffix after the ones found later. -/
def stripSuffixes (w : List Char) (st : Nat) : Nat → Nat → List (List Char) × Nat
  | 0, ep => ([], ep)
  | Nat.succ f, ep =>
    match findSuffixAt w st ep with
    | none => ([], ep)
    | some s =>
      let r := stripSuffixes w st f (ep - s.length)
      (r.1 ++ [s], r.2)

/-- minimalStemFix (morphology.v2.ts lines 36-40): drop a trailing e when the last
suffix is ing. -/
def minimalStemFix (stem : List Char) (lastSuffix : List Char) : List Char :=
  if lastSuffix = "ing".toList ∧ stem.getLast? = some 'e' then stem.dropLast else stem

/-- foundPrefixes for a normalized word. -/
def foundPrefixesOf (w : List Char) : List (List Char) :=
  (stripPrefixes w (w.length + 1) 0).1

/-- consumedStart after the prefix phase. -/
def consumedStartOf (w : List Char) : Nat :=
  (stripPrefixes w (w.length + 1) 0).2

/-- foundSuffixes for a normalized word. -/
def foundSuffixesOf (w : List Char) : List (List Char) :=
  (stripSuffixes w (consumedStartOf w) (w.length + 1) w.length).1

/-- consumedEnd after the suffix phase (before stem repair). -/
def consumedEndOf (w : List Char) : Nat :=
  (stripSuffixes w (consumedStartOf w) (w.length + 1) w.length).2

/-- root = word.slice(consumedStart, consumedEnd) (morphology.v2.ts line 84). -/
def root0Of (w : List Char) : List Char :=
  sliceList w (consumedStartOf w) (consumedEndOf w)

/-- lastSuf = foundSuffixes[foundSuffixes.length - 1] ?? "". -/
def lastSufOf (w : List Char) : List Char :=
  ((foundSuffixesOf w).getLast?).getD []

/-- The root after stem repair (morphology.v2.ts lines 87-95; the consumedEnd adjustment
of lines 90-95 is dead for the returned result, because the span rebuild below derives
all indices from string lengths alone). -/
def rootOf (w : List Char) : List Char :=
  minimalStemFix (root0Of w) (lastSufOf w)

/-- Number of characters the stem repair removed from the root. -/
def stemDeltaOf (w : List Char) : Nat := (root0Of w).length - (rootOf w).length

/-- stemDelta for an input as analyzed by morpho. -/
def stemDelta (input : List Char) : Nat := stemDeltaOf (normalize input)

/-- The span-rebuild cursor walk (morphology.v2.ts lines 99-114) over one run of texts of
a single morpheme type; returns the emitted spans and the final cursor. -/
def spanWalk (ty : MType) (c : Nat) : List (List Char) → List Morpheme × Nat
  | [] => ([], c)
  | x :: xs =>
    let r := spanWalk ty (c + x.length) xs
    (⟨ty, x, c, c + x.length⟩ :: r.1, r.2)

/-- The rebuilt morpheme list (morphology.v2.ts lines 97-114): prefix spans from cursor 0,
then the root span, then suffix spans. -/
def morphemesOf (w : List Char) : List Morpheme :=
  let pr := spanWalk MType.pref 0 (foundPrefixesOf w)
  let rootM : Morpheme := ⟨MType.root, rootOf w, pr.2, pr.2 + (rootOf w).length⟩
  let sf := spanWalk MType.suffix (pr.2 + (rootOf w).length) (foundSuffixesOf w)
  pr.1 ++ rootM :: sf.1

/-- morpho (morphology.v2.ts lines 42-131): the analyze entry point.  Total function. -/
def morpho (input : List Char) : MResult :=
  let w := normalize input
  { original := input
    word := w
    prefixes := foundPrefixesOf w
    root := rootOf w
    suffixes := foundSuffixesOf w
    morphemes := morphemesOf w
    complexity := (foundPrefixesOf w).length + (foundSuffixesOf w).length
    confidence := 1 / (1 + (((foundPrefixesOf w).length + (foundSuffixesOf w).length : Nat) : ℚ)) }

/-- The fixed tag vocabulary BIO_TAGS of build_jsonl.ts line 11. -/
def BIO_TAGS : List String :=
  ["O", "B-PREFIX", "I-PREFIX", "B-ROOT", "I-ROOT", "B-SUFFIX", "I-SUFFIX"]

/-- The type-name mapping used inside buildSegmentationDataset (build_jsonl.ts
lines 50-52): full names PREFIX / ROOT / SUFFIX. -/
def tagOf : MType → String
  | MType.pref => "PREFIX"
  | MType.root => "ROOT"
  | MType.suffix => "SUFFIX"

/-- The label computation of buildSegmentationDataset (build_jsonl.ts lines 44-62):
an O-filled array of word length, then for each morpheme the B- and I- writes over
[m.start, m.end). -/
def bioEncode (word : List Char) (ms : List Morpheme) : List String :=
  ms.foldl
    (fun labels m =>
      (List.range' m.start (m.stop - m.start)).foldl
        (fun l i => l.set i (if i = m.start then "B-" ++ tagOf m.type else "I-" ++ tagOf m.type))
        labels)
    (List.replicate word.length "O")

/-- The labels buildSegmentationDataset computes for one input word. -/
def segLabels (input : List Char) : List String :=
  bioEncode (morpho input).word (morpho input).morphemes

/-- Span record of the demo encoder (demo_fixes.ts lines 68-69). -/
structure Span where
  type : MType
  start : Nat
  stop : Nat
deriving DecidableEq, Repr

/-- spanToTag of demo_fixes.ts lines 71-75: truncated PRE / SUF names, full ROOT. -/
def spanToTag : MType → String
  | MType.pref => "PRE"
  | MType.root => "ROOT"
  | MType.suffix => "SUF"

/-- toBIO of demo_fixes.ts lines 77-85 (source name toBIO): the B- write guarded by
s.start < word.length, the I- writes over [s.start + 1, min(s.end, word.length)).
All writes are clipped to the word length; the function is total and never reports
a length mismatch. -/
def toBio (word : List Char) (spans : List Span) : List String :=
  spans.foldl
    (fun labels s =>
      let tag := spanToTag s.type
      let l1 := if s.start < word.length then labels.set s.start ("B-" ++ tag) else labels
      (List.range' (s.start + 1) (min s.stop word.length - (s.start + 1))).foldl
        (fun l i => l.set i ("I-" ++ tag)) l1)
    (List.replicate word.length "O")

/-- Contiguity check over a span list: each span starts where the previous cursor ended,
its stop is start plus text length, and the spans chain. -/
def contiguousFrom : Nat → List Morpheme → Bool
  | _, [] => true
  | c, m :: ms =>
    (m.start == c) && (m.stop == m.start + m.text.length) && contiguousFrom m.stop ms

/-- The stop index of the last span in a list (0 for the empty list; morpho never
produces an empty list). -/
def finalStop (ms : List Morpheme) : Nat :=
  match ms.getLast? with
  | none => 0
  | some m => m.stop

/-- The order relation a stable descending-length sort of the declaration table decl
establishes between any element and any later element: strictly longer, or of equal
length and declared no later. -/
def declRel (decl : List (List Char)) (a b : List Char) : Prop :=
  b.length < a.length ∨ (b.length = a.length ∧ List.indexOf a decl ≤ List.indexOf b decl)

instance (decl : List (List Char)) (a b : List Char) : Decidable (declRel decl a b) := by
  unfold declRel
  infer_instance

/-! ### Generic list lemmas -/

/-- List.find? returns an element of the list satisfying the predicate. -/
lemma find?_pred {α : Type} (P : α → Bool) :
    ∀ (l : List α) (a : α), l.find? P = some a → P a = true ∧ a ∈ l := by
  intro l
  induction l with
  | nil => intro a h; cases h
  | cons x t ih =>
    intro a h
    simp only [List.find?] at h
    cases hPx : P x with
    | true =>
      rw [hPx] at h
      simp only [Option.some.injEq] at h
      subst h
      exact ⟨hPx, List.mem_cons_self x t⟩
    | false =>
      rw [hPx] at h
      obtain ⟨h1, h2⟩ := ih a h
      exact ⟨h1, List.mem_cons_of_mem x h2⟩

/-- List.find? returns the first element satisfying the predicate: any other
satisfying element of the list is the found one or stands in the pairwise
relation to it. -/
lemma find?_first {α : Type} (R : α → α → Prop) :
    ∀ (s : List α), List.Pairwise R s → ∀ (P : α → Bool) (p : α), s.find? P = some p →
      P p = true ∧ ∀ q ∈ s, P q = true → q = p ∨ R p q := by
  intro s
  induction s with
  | nil => intro _ P p h; cases h
  | cons x t ih =>
    intro hpw P p h
    rw [List.pairwise_cons] at hpw
    simp only [List.find?] at h
    cases hPx : P x with
    | true =>
      rw [hPx] at h
      simp only [Option.some.injEq] at h
      subst h
      refine ⟨hPx, ?_⟩
      intro q hq hPq
      rcases List.mem_cons.mp hq with rfl | hqt
      · exact Or.inl rfl
      · exact Or.inr (hpw.1 q hqt)
    | false =>
      rw [hPx] at h
      obtain ⟨hPp, hall⟩ := ih hpw.2 P p h
      refine ⟨hPp, ?_⟩
      intro q hq hPq
      rcases List.mem_cons.mp hq with rfl | hqt
      · rw [hPx] at hPq; cases hPq
      · exact hall q hqt hPq

/-- A list of nonempty lists has no more elements than the sum of their lengths. -/
lemma length_le_sum_of_pos :
    ∀ (ps : List (List Char)), (∀ p ∈ ps, 0 < p.length) →
      ps.length ≤ (ps.map List.length).sum := by
  intro ps
  induction ps with
  | nil => intro _; simp
  | cons x t ih =>
    intro h
    have hx : 0 < x.length := h x (List.mem_cons_self x t)
    have ht := ih (fun p hp => h p (List.mem_cons_of_mem x hp))
    simp only [List.map_cons, List.sum_cons, List.length_cons]
    omega

/-! ### Affix-table facts (all by evaluation of the concrete tables) -/

/-- Every sorted prefix-table entry is nonempty. -/
lemma sortedPrefixes_pos : ∀ p ∈ sortedPrefixes, 0 < p.length := by decide

/-- Every sorted suffix-table entry is nonempty. -/
lemma sortedSuffixes_pos : ∀ p ∈ sortedSuffixes, 0 < p.length := by decide

/-! ### Finder lemmas -/

/-- A found prefix matches at the cursor and comes from the table. -/
lemma findPrefixAt_some {w : List Char} {pos : Nat} {p : List Char}
    (h : findPrefixAt w pos = some p) :
    matchesPrefixAt w pos p = true ∧ p ∈ sortedPrefixes :=
  find?_pred (matchesPrefixAt w pos) sortedPrefixes p h

/-- A found suffix passes the acceptance test and comes from the table. -/
lemma findSuffixAt_some {w : List Char} {st ep : Nat} {s : List Char}
    (h : findSuffixAt w st ep = some s) :
    suffixAccept w st ep s = true ∧ s ∈ sortedSuffixes :=
  find?_pred (suffixAccept w st ep) sortedSuffixes s h

/-- isPrefixOf only holds into a list at least as long. -/
lemma isPrefixOf_length :
    ∀ (p l : List Char), p.isPrefixOf l = true → p.length ≤ l.length := by
  intro p
  induction p with
  | nil => intro l _; simp
  | cons a as ih =>
    intro l h
    cases l with
    | nil => simp [List.isPrefixOf] at h
    | cons b bs =>
      simp only [List.isPrefixOf, Bool.and_eq_true] at h
      have := ih bs h.2
      simp only [List.length_cons]
      omega

/-- A prefix match at the cursor fits inside the word. -/
lemma matchesPrefixAt_le {w : List Char} {pos : Nat} {p : List Char}
    (h : matchesPrefixAt w pos p = true) : p.length ≤ w.length - pos := by
  unfold matchesPrefixAt at h
  have := isPrefixOf_length p (w.drop pos) h
  simpa using this

/-- The guard inside suffixAccept, extracted. -/
lemma suffixAccept_guard {w : List Char} {st ep : Nat} {s : List Char}
    (h : suffixAccept w st ep s = true) :
    st + 1 + s.length < ep ∧ sliceList w (ep - s.length) ep = s := by
  unfold suffixAccept at h
  rw [Bool.and_eq_true] at h
  exact ⟨of_decide_eq_true h.1, by simpa using h.2⟩

/-! ### Prefix-phase loop invariants -/

/-- The prefix cursor never moves backwards. -/
lemma stripPrefixes_ge (w : List Char) :
    ∀ f pos, pos ≤ (stripPrefixes w f pos).2 := by
  intro f
  induction f with
  | zero => intro pos; simp [stripPrefixes]
  | succ f ih =>
    intro pos
    simp only [stripPrefixes]
    cases hf : findPrefixAt w pos with
    | none => simp
    | some p =>
      simp only []
      have := ih (pos + p.length)
      omega

/-- The prefix cursor stays within the word. -/
lemma stripPrefixes_le (w : List Char) :
    ∀ f pos, pos ≤ w.length → (stripPrefixes w f pos).2 ≤ w.length := by
  intro f
  induction f with
  | zero => intro pos h; simpa [stripPrefixes] using h
  | succ f ih =>
    intro pos h
    simp only [stripPrefixes]
    cases hf : findPrefixAt w pos with
    | none => simpa using h
    | some p =>
      simp only []
      obtain ⟨hm, hmem⟩ := findPrefixAt_some hf
      have hlen := matchesPrefixAt_le hm
      have hpos := sortedPrefixes_pos p hmem
      exact ih (pos + p.length) (by omega)

/-- The final prefix cursor is the start cursor plus the total length stripped. -/
lemma stripPrefixes_sum (w : List Char) :
    ∀ f pos, pos + (((stripPrefixes w f pos).1).map List.length).sum
      = (stripPrefixes w f pos).2 := by
  intro f
  induction f with
  | zero => intro pos; simp [stripPrefixes]
  | succ f ih =>
    intro pos
    simp only [stripPrefixes]
    cases hf : findPrefixAt w pos with
    | none => simp
    | some p =>
      simp only [List.map_cons, List.sum_cons]
      have := ih (pos + p.length)
      omega

/-- Every stripped prefix comes from the sorted table. -/
lemma stripPrefixes_mem (w : List Char) :
    ∀ f pos p, p ∈ (stripPrefixes w f pos).1 → p ∈ sortedPrefixes := by
  intro f
  induction f with
  | zero => intro pos p h; simp [stripPrefixes] at h
  | succ f ih =>
    intro pos p h
    simp only [stripPrefixes] at h
    cases hf : findPrefixAt w pos with
    | none => rw [hf] at h; simp at h
    | some q =>
      rw [hf] at h
      simp only [List.mem_cons] at h
      rcases h with rfl | h
      · exact (findPrefixAt_some hf).2
      · exact ih (pos + q.length) p h

/-! ### Suffix-phase loop invariants -/

/-- The suffix cursor never moves forwards. -/
lemma stripSuffixes_le (w : List Char) (st : Nat) :
    ∀ f ep, (stripSuffixes w st f ep).2 ≤ ep := by
  intro f
  induction f with
  | zero => intro ep; simp [stripSuffixes]
  | succ f ih =>
    intro ep
    simp only [stripSuffixes]
    cases hf : findSuffixAt w st ep with
    | none => simp
    | some s =>
      simp only []
      have := ih (ep - s.length)
      omega

/-- If no suffix was stripped, the suffix cursor did not move. -/
lemma stripSuffixes_nil (w : List Char) (st : Nat) :
    ∀ f ep, (stripSuffixes w st f ep).1 = [] → (stripSuffixes w st f ep).2 = ep := by
  intro f
  induction f with
  | zero => intro ep _; simp [stripSuffixes]
  | succ f ih =>
    intro ep h
    simp only [stripSuffixes] at h ⊢
    cases hf : findSuffixAt w st ep with
    | none => simp
    | some s => rw [hf] at h; simp at h

/-- If at least one suffix was stripped, the guard leaves the cursor at least two
characters past the left cursor. -/
lemma stripSuffixes_guard (w : List Char) (st : Nat) :
    ∀ f ep, (stripSuffixes w st f ep).1 ≠ [] → st + 2 ≤ (stripSuffixes w st f ep).2 := by
  intro f
  induction f with
  | zero => intro ep h; simp [stripSuffixes] at h
  | succ f ih =>
    intro ep h
    simp only [stripSuffixes] at h ⊢
    cases hf : findSuffixAt w st ep with
    | none => rw [hf] at h; simp at h
    | some s =>
      simp only []
      obtain ⟨hacc, _⟩ := findSuffixAt_some hf
      obtain ⟨hguard, _⟩ := suffixAccept_guard hacc
      by_cases hrec : (stripSuffixes w st f (ep - s.length)).1 = []
      · have := stripSuffixes_nil w st f (ep - s.length) hrec
        omega
      · exact ih (ep - s.length) hrec

/-- The start cursor plus one is always strictly below the cursor after a
successful match (the accepted start index). -/
lemma stripSuffixes_sum (w : List Char) (st : Nat) :
    ∀ f ep, (stripSuffixes w st f ep).2 + (((stripSuffixes w st f ep).1).map List.length).sum
      = ep := by
  intro f
  induction f with
  | zero => intro ep; simp [stripSuffixes]
  | succ f ih =>
    intro ep
    simp only [stripSuffixes]
    cases hf : findSuffixAt w st ep with
    | none => simp
    | some s =>
      simp only [List.map_append, List.sum_append, List.map_cons, List.sum_cons]
      obtain ⟨hacc, _⟩ := findSuffixAt_some hf
      obtain ⟨hguard, _⟩ := suffixAccept_guard hacc
      have := ih (ep - s.length)
      simp only [List.map_nil, List.sum_nil] at this ⊢
      omega

/-- Every stripped suffix comes from the sorted table. -/
lemma stripSuffixes_mem (w : List Char) (st : Nat) :
    ∀ f ep s, s ∈ (stripSuffixes w st f ep).1 → s ∈ sortedSuffixes := by
  intro f
  induction f with
  | zero => intro ep s h; simp [stripSuffixes] at h
  | succ f ih =>
    intro ep s h
    simp only [stripSuffixes] at h
    cases hf : findSuffixAt w st ep with
    | none => rw [hf] at h; simp at h
    | some q =>
      rw [hf] at h
      simp only [List.mem_append, List.mem_cons] at h
      rcases h with h | h
      · exact ih (ep - q.length) s h
      · rcases h with rfl | h
        · exact (findSuffixAt_some hf).2
        · simp at h

/-! ### Span-walk lemmas -/

/-- The walk emits one span per text, all of the given type. -/
lemma spanWalk_types (ty : MType) :
    ∀ (xs : List (List Char)) (c : Nat),
      ((spanWalk ty c xs).1).map Morpheme.type = List.replicate xs.length ty := by
  intro xs
  induction xs with
  | nil => intro c; simp [spanWalk]
  | cons x t ih =>
    intro c
    simp [spanWalk, ih, List.replicate_succ]

/-- The walk emits as many spans as texts. -/
lemma spanWalk_length (ty : MType) :
    ∀ (xs : List (List Char)) (c : Nat), ((spanWalk ty c xs).1).length = xs.length := by
  intro xs
  induction xs with
  | nil => intro c; simp [spanWalk]
  | cons x t ih => intro c; simp [spanWalk, ih]

/-- The final cursor of the walk is the start plus the total text length. -/
lemma spanWalk_snd (ty : MType) :
    ∀ (xs : List (List Char)) (c : Nat),
      (spanWalk ty c xs).2 = c + (xs.map List.length).sum := by
  intro xs
  induction xs with
  | nil => intro c; simp [spanWalk]
  | cons x t ih =>
    intro c
    simp only [spanWalk, List.map_cons, List.sum_cons]
    rw [ih]
    omega

/-- The walk emits a contiguous chain: checking contiguity of the walk output followed
by any remainder reduces to checking the remainder from the final cursor. -/
lemma spanWalk_chain (ty : MType) :
    ∀ (xs : List (List Char)) (c : Nat) (more : List Morpheme),
      contiguousFrom c ((spanWalk ty c xs).1 ++ more)
        = contiguousFrom (spanWalk ty c xs).2 more := by
  intro xs
  induction xs with
  | nil => intro c more; simp [spanWalk]
  | cons x t ih =>
    intro c more
    simp only [spanWalk, List.cons_append, contiguousFrom, List.append_eq]
    rw [ih]
    simp

/-- For a nonempty text list the walk output is nonempty and its last span stops at the
final cursor. -/
lemma spanWalk_getLast (ty : MType) :
    ∀ (xs : List (List Char)) (c : Nat), xs ≠ [] →
      ∃ m, ((spanWalk ty c xs).1).getLast? = some m ∧ m.stop = (spanWalk ty c xs).2 := by
  intro xs
  induction xs with
  | nil => intro c h; exact absurd rfl h
  | cons x t ih =>
    intro c _
    by_cases ht : t = []
    · subst ht
      exact ⟨⟨ty, x, c, c + x.length⟩, rfl, by simp [spanWalk]⟩
    · obtain ⟨m, hm, hstop⟩ := ih (c + x.length) ht
      refine ⟨m, ?_, ?_⟩
      · simp only [spanWalk]
        cases hw : (spanWalk ty (c + x.length) t).1 with
        | nil => rw [hw] at hm; cases hm
        | cons b bs =>
          rw [List.getLast?_cons_cons]
          rw [hw] at hm
          exact hm
      · simp only [spanWalk]
        exact hstop

/-! ### Stem-repair lemmas -/

/-- minimalStemFix keeps the stem length or shortens it by exactly one. -/
lemma minimalStemFix_length (stem lastSuffix : List Char) :
    (minimalStemFix stem lastSuffix).length = stem.length ∨
      (minimalStemFix stem lastSuffix).length + 1 = stem.length := by
  unfold minimalStemFix
  split
  · rename_i h
    right
    have hne : stem ≠ [] := by
      intro hc
      subst hc
      simp at h
    rw [List.length_dropLast]
    have hpos : 0 < stem.length := List.length_pos.mpr hne
    omega
  · left
    rfl

/-- The repaired root keeps the pre-repair length or is shorter by exactly one. -/
lemma rootOf_length (w : List Char) :
    (rootOf w).length = (root0Of w).length ∨ (rootOf w).length + 1 = (root0Of w).length :=
  minimalStemFix_length (root0Of w) (lastSufOf w)

/-! ### Cursor facts -/

/-- consumedStart never exceeds the word length. -/
lemma consumedStart_le (w : List Char) : consumedStartOf w ≤ w.length :=
  stripPrefixes_le w (w.length + 1) 0 (Nat.zero_le _)

/-- consumedEnd never exceeds the word length. -/
lemma consumedEnd_le (w : List Char) : consumedEndOf w ≤ w.length :=
  stripSuffixes_le w (consumedStartOf w) (w.length + 1) w.length

/-- consumedStart never exceeds consumedEnd. -/
lemma consumedStart_le_consumedEnd (w : List Char) :
    consumedStartOf w ≤ consumedEndOf w := by
  by_cases h : foundSuffixesOf w = []
  · have hnil := stripSuffixes_nil w (consumedStartOf w) (w.length + 1) w.length h
    have hle := consumedStart_le w
    unfold consumedEndOf
    omega
  · have := stripSuffixes_guard w (consumedStartOf w) (w.length + 1) w.length h
    unfold consumedEndOf at *
    omega

/-- The pre-repair root is exactly the characters between the two cursors. -/
lemma root0_length (w : List Char) :
    (root0Of w).length = consumedEndOf w - consumedStartOf w := by
  unfold root0Of sliceList
  rw [List.length_take, List.length_drop]
  have h1 := consumedEnd_le w
  omega

/-! ### Fuel adequacy: the greedy loops halt within the word-length budget -/

/-- Beyond the end of the word, no prefix-table entry matches. -/
lemma findPrefixAt_none_of_ge (w : List Char) (pos : Nat) (h : w.length ≤ pos) :
    findPrefixAt w pos = none := by
  unfold findPrefixAt
  rw [List.find?_eq_none]
  intro p hp
  have hdrop : w.drop pos = [] := List.drop_eq_nil_of_le h
  have hpos := sortedPrefixes_pos p hp
  unfold matchesPrefixAt
  rw [hdrop]
  cases p with
  | nil => simp at hpos
  | cons a as => simp [List.isPrefixOf]

/-- Any two fuels beyond the remaining word length give the same prefix scan. -/
lemma stripPrefixes_fuel (w : List Char) :
    ∀ f1 f2 pos, w.length < pos + f1 → w.length < pos + f2 →
      stripPrefixes w f1 pos = stripPrefixes w f2 pos := by
  intro f1
  induction f1 with
  | zero =>
    intro f2 pos h1 h2
    have hnone : findPrefixAt w pos = none := findPrefixAt_none_of_ge w pos (by omega)
    cases f2 with
    | zero => rfl
    | succ f2 => simp [stripPrefixes, hnone]
  | succ f1 ih =>
    intro f2 pos h1 h2
    cases f2 with
    | zero =>
      have hnone : findPrefixAt w pos = none := findPrefixAt_none_of_ge w pos (by omega)
      simp [stripPrefixes, hnone]
    | succ f2 =>
      simp only [stripPrefixes]
      cases hf : findPrefixAt w pos with
      | none => rfl
      | some p =>
        simp only []
        obtain ⟨hm, hmem⟩ := findPrefixAt_some hf
        have hlen := matchesPrefixAt_le hm
        have hpos := sortedPrefixes_pos p hmem
        rw [ih f2 (pos + p.length) (by omega) (by omega)]

/-- Any two fuels above the right cursor give the same suffix scan. -/
lemma stripSuffixes_fuel (w : List Char) (st : Nat) :
    ∀ f1 f2 ep, ep < f1 → ep < f2 →
      stripSuffixes w st f1 ep = stripSuffixes w st f2 ep := by
  intro f1
  induction f1 with
  | zero => intro f2 ep h1 h2; omega
  | succ f1 ih =>
    intro f2 ep h1 h2
    cases f2 with
    | zero => omega
    | succ f2 =>
      simp only [stripSuffixes]
      cases hf : findSuffixAt w st ep with
      | none => rfl
      | some s =>
        simp only []
        obtain ⟨hacc, hmem⟩ := findSuffixAt_some hf
        obtain ⟨hguard, _⟩ := suffixAccept_guard hacc
        have hpos := sortedSuffixes_pos s hmem
        rw [ih f2 (ep - s.length) (by omega) (by omega)]

/-! ### Structure of the rebuilt morpheme list -/

/-- The prefix walk ends exactly at consumedStart. -/
lemma prefWalk_snd (w : List Char) :
    (spanWalk MType.pref 0 (foundPrefixesOf w)).2 = consumedStartOf w := by
  rw [spanWalk_snd]
  have h2 := stripPrefixes_sum w (w.length + 1) 0
  unfold foundPrefixesOf consumedStartOf
  omega

/-- morphemesOf, with the walk cursors written in terms of the stripper cursors. -/
lemma morphemesOf_parts (w : List Char) :
    morphemesOf w =
      (spanWalk MType.pref 0 (foundPrefixesOf w)).1
        ++ (⟨MType.root, rootOf w, consumedStartOf w,
              consumedStartOf w + (rootOf w).length⟩ : Morpheme)
        :: (spanWalk MType.suffix (consumedStartOf w + (rootOf w).length)
              (foundSuffixesOf w)).1 := by
  simp only [morphemesOf]
  rw [prefWalk_snd]

/-- The rebuilt morpheme list is a contiguous chain starting at 0. -/
lemma morphemesOf_contiguous (w : List Char) :
    contiguousFrom 0 (morphemesOf w) = true := by
  rw [morphemesOf_parts, spanWalk_chain, prefWalk_snd]
  simp only [contiguousFrom, beq_self_eq_true, Bool.true_and]
  rw [← List.append_nil (spanWalk MType.suffix _ (foundSuffixesOf w)).1, spanWalk_chain]
  simp [contiguousFrom]

/-- The rebuilt morpheme list is typed: all prefix spans, then the root span, then all
suffix spans, in strip order. -/
lemma morphemesOf_types (w : List Char) :
    (morphemesOf w).map Morpheme.type
      = List.replicate (foundPrefixesOf w).length MType.pref
          ++ MType.root :: List.replicate (foundSuffixesOf w).length MType.suffix := by
  rw [morphemesOf_parts]
  simp [spanWalk_types]

/-- finalStop ignores anything before the last cons cell. -/
lemma finalStop_append_cons (l1 : List Morpheme) (m : Morpheme) (l2 : List Morpheme) :
    finalStop (l1 ++ m :: l2) = finalStop (m :: l2) := by
  unfold finalStop
  rw [List.getLast?_append_of_ne_nil]
  simp

/-- finalStop of a cons with nonempty tail is the finalStop of the tail. -/
lemma finalStop_cons (m : Morpheme) (l2 : List Morpheme) (h : l2 ≠ []) :
    finalStop (m :: l2) = finalStop l2 := by
  cases l2 with
  | nil => exact absurd rfl h
  | cons b bs =>
    unfold finalStop
    rw [List.getLast?_cons_cons]

/-- The last rebuilt span ends at the word length minus the stem-repair shortening. -/
lemma morphemesOf_finalStop (w : List Char) :
    finalStop (morphemesOf w) = w.length - stemDeltaOf w := by
  have hs := consumedStart_le w
  have hse := consumedStart_le_consumedEnd w
  have hr0 := root0_length w
  have hro := rootOf_length w
  rw [morphemesOf_parts, finalStop_append_cons]
  by_cases h : foundSuffixesOf w = []
  · have hnil := stripSuffixes_nil w (consumedStartOf w) (w.length + 1) w.length h
    rw [h]
    have hempty : (spanWalk MType.suffix (consumedStartOf w + (rootOf w).length)
        ([] : List (List Char))).1 = [] := rfl
    rw [hempty]
    show consumedStartOf w + (rootOf w).length = w.length - stemDeltaOf w
    have hnil2 : consumedEndOf w = w.length := hnil
    unfold stemDeltaOf
    omega
  · obtain ⟨m, hm, hstop⟩ :=
      spanWalk_getLast MType.suffix (foundSuffixesOf w)
        (consumedStartOf w + (rootOf w).length) h
    have hne : (spanWalk MType.suffix (consumedStartOf w + (rootOf w).length)
        (foundSuffixesOf w)).1 ≠ [] := by
      intro hc
      rw [hc] at hm
      cases hm
    rw [finalStop_cons _ _ hne]
    have hfs : finalStop (spanWalk MType.suffix (consumedStartOf w + (rootOf w).length)
        (foundSuffixesOf w)).1 = m.stop := by
      unfold finalStop
      rw [hm]
    rw [hfs, hstop, spanWalk_snd]
    have hsum := stripSuffixes_sum w (consumedStartOf w) (w.length + 1) w.length
    have he := consumedEnd_le w
    unfold stemDeltaOf
    unfold consumedEndOf foundSuffixesOf at *
    omega

/-- The chain cursor is a lower bound for the finalStop of a nonempty chain. -/
lemma contiguous_le_finalStop :
    ∀ (ms : List Morpheme) (c : Nat), contiguousFrom c ms = true → ms ≠ [] →
      c ≤ finalStop ms := by
  intro ms
  induction ms with
  | nil => intro c _ h; exact absurd rfl h
  | cons m t ih =>
    intro c hchain _
    simp only [contiguousFrom, Bool.and_eq_true, beq_iff_eq] at hchain
    obtain ⟨⟨hstart, hstop⟩, hrest⟩ := hchain
    by_cases ht : t = []
    · subst ht
      show c ≤ m.stop
      omega
    · rw [finalStop_cons _ _ ht]
      have := ih m.stop hrest ht
      omega

/-- Every span in a contiguous chain stops at or before the finalStop. -/
lemma contiguous_stop_le :
    ∀ (ms : List Morpheme) (c : Nat), contiguousFrom c ms = true →
      ∀ m ∈ ms, m.stop ≤ finalStop ms := by
  intro ms
  induction ms with
  | nil => intro c _ m hm; cases hm
  | cons x t ih =>
    intro c hchain m hm
    simp only [contiguousFrom, Bool.and_eq_true, beq_iff_eq] at hchain
    obtain ⟨⟨hstart, hstop⟩, hrest⟩ := hchain
    rcases List.mem_cons.mp hm with rfl | hmt
    · by_cases ht : t = []
      · subst ht
        show m.stop ≤ m.stop
        exact Nat.le_refl _
      · rw [finalStop_cons _ _ ht]
        exact contiguous_le_finalStop t m.stop hrest ht
    · by_cases ht : t = []
      · subst ht; cases hmt
      · rw [finalStop_cons _ _ ht]
        exact ih x.stop hrest m hmt

/-- All rebuilt spans end within the normalized word, so every array write performed by
the dataset-layer encoder is in range (List.set agrees with the JS assignment). -/
lemma morphemesOf_stop_le (w : List Char) :
    ∀ m ∈ morphemesOf w, m.stop ≤ w.length := by
  intro m hm
  have h1 := contiguous_stop_le (morphemesOf w) 0 (morphemesOf_contiguous w) m hm
  have h2 := morphemesOf_finalStop w
  omega

/-! ### Label-vocabulary closure machinery -/

/-- A fold whose step preserves pointwise membership in T preserves it globally. -/
lemma foldl_preserve {α : Type} (T : List String) (g : List String → α → List String)
    (hg : ∀ l a, (∀ x ∈ l, x ∈ T) → ∀ x ∈ g l a, x ∈ T) :
    ∀ (ls : List α) (init : List String), (∀ x ∈ init, x ∈ T) →
      ∀ x ∈ ls.foldl g init, x ∈ T := by
  intro ls
  induction ls with
  | nil => intro init h x hx; exact h x hx
  | cons a t ih =>
    intro init h x hx
    exact ih (g init a) (hg init a h) x hx

/-- Writing a value of T into a list of values of T stays within T. -/
lemma set_preserve (T : List String) (l : List String) (i : Nat) (v : String)
    (hl : ∀ x ∈ l, x ∈ T) (hv : v ∈ T) : ∀ x ∈ l.set i v, x ∈ T := by
  intro x hx
  rcases List.mem_or_eq_of_mem_set hx with h | rfl
  · exact hl x h
  · exact hv

/-! ### Longest-match lemmas for the sorted tables -/

/-- The sorted prefix table is pairwise ordered by the stable descending-length order
relative to the declaration table. -/
lemma sortedPrefixes_pairwise : List.Pairwise (declRel prefixes) sortedPrefixes := by
  decide

/-- The sorted suffix table is pairwise ordered by the stable descending-length order
relative to the declaration table. -/
lemma sortedSuffixes_pairwise : List.Pairwise (declRel suffixes) sortedSuffixes := by
  decide

/-- Every declared prefix appears in the sorted table. -/
lemma mem_sortedPrefixes_of_mem : ∀ q ∈ prefixes, q ∈ sortedPrefixes := by decide

/-- Every sorted prefix appears in the declaration table. -/
lemma mem_prefixes_of_mem_sorted : ∀ q ∈ sortedPrefixes, q ∈ prefixes := by decide

/-- Every declared suffix appears in the sorted table. -/
lemma mem_sortedSuffixes_of_mem : ∀ q ∈ suffixes, q ∈ sortedSuffixes := by decide

/-- Every sorted suffix appears in the declaration table. -/
lemma mem_suffixes_of_mem_sorted : ∀ q ∈ sortedSuffixes, q ∈ suffixes := by decide

/-- The two label forms written by the dataset-layer encoder, with the Prop-valued
index comparison of the source, are in the fixed vocabulary. -/
lemma tagOf_ite_mem (ty : MType) (i s : Nat) :
    (if i = s then "B-" ++ tagOf ty else "I-" ++ tagOf ty) ∈ BIO_TAGS := by
  split <;> cases ty <;> decide

/-! ## Claim theorems -/

/-- Claim C1 (code_bug): span/text fidelity fails on the real word "being".  The stem
repair shortens the root "be" to "b", but the rebuilt suffix span [1, 4) of the morpheme
with text "ing" reads "ein" in the normalized word, so word[m.start:m.end] differs from
m.text precisely on inputs where the repair shortened the root, contrary to the claim
(and to the span-drift fix the repository documentation describes). -/
theorem c1_span_text_bug :
    (morpho "being".toList).morphemes
        = [⟨MType.root, "b".toList, 0, 1⟩, ⟨MType.suffix, "ing".toList, 1, 4⟩]
    ∧ sliceList (morpho "being".toList).word 1 4 = "ein".toList
    ∧ "ein".toList ≠ "ing".toList := by
  refine ⟨by decide, by decide, by decide⟩

/-- Claim C2 counterexample: on "being" the last morpheme span ends at index 4 while the
normalized word has length 5, so the spans do not cover the whole normalized word as the
claim states. -/
theorem c2_counterexample :
    finalStop (morpho "being".toList).morphemes = 4
    ∧ (morpho "being".toList).word.length = 5 := by
  refine ⟨by decide, by decide⟩

/-- Claim C2 (amended): for every input the morpheme list is ordered as the prefix spans
in strip order, then exactly one root span, then the suffix spans left to right; the
first span starts at 0, every span ends where it started plus its text length, and each
span ends where the next begins; the last span ends at the length of the normalized word
minus the number of characters removed by stem repair (at most one) — in particular at
the word length whenever the repair left the root length unchanged. -/
theorem c2_amended_coverage (input : List Char) :
    (morpho input).morphemes.map Morpheme.type
        = List.replicate (morpho input).prefixes.length MType.pref
            ++ MType.root :: List.replicate (morpho input).suffixes.length MType.suffix
    ∧ contiguousFrom 0 (morpho input).morphemes = true
    ∧ finalStop (morpho input).morphemes = (morpho input).word.length - stemDelta input
    ∧ stemDelta input ≤ 1 := by
  refine ⟨?_, ?_, ?_, ?_⟩
  · exact morphemesOf_types (normalize input)
  · exact morphemesOf_contiguous (normalize input)
  · exact morphemesOf_finalStop (normalize input)
  · have h := rootOf_length (normalize input)
    unfold stemDelta stemDeltaOf
    omega

/-- Claim C3 (code_bug): no label-length validation exists in the code.  The demo BIO
encoder toBIO is a total function that silently clips out-of-range spans: a root span
[0, 5) over the 2-character word "ab" is encoded to two labels with no
LabelLengthMismatch failure of any kind, and buildSegmentationDataset performs no length
check either, although the repository documentation states that a throwing check was
added. -/
theorem c3_no_validation :
    toBio "ab".toList [⟨MType.root, 0, 5⟩] = ["B-ROOT", "I-ROOT"] := by
  decide

/-- Claim C4 counterexample: on the spans morpho produces for "unhappy", the demo
encoder spanToTag/toBIO emits the truncated label B-PRE, which is not in the fixed
7-symbol vocabulary. -/
theorem c4_counterexample :
    toBio (morpho "unhappy".toList).word
        ((morpho "unhappy".toList).morphemes.map (fun m => ⟨m.type, m.start, m.stop⟩))
      = ["B-PRE", "I-PRE", "B-ROOT", "I-ROOT", "I-ROOT", "I-ROOT", "I-ROOT"]
    ∧ "B-PRE" ∉ BIO_TAGS := by
  refine ⟨by decide, by decide⟩

/-- Claim C4 (amended): every label computed by the dataset-layer encoder of
buildSegmentationDataset (build_jsonl.ts) for any input word is a member of the fixed
7-symbol vocabulary BIO_TAGS; the truncated names are emitted only by the separate demo
encoder (see the counterexample). -/
theorem c4_amended_closure (input : List Char) :
    ∀ l ∈ segLabels input, l ∈ BIO_TAGS := by
  unfold segLabels bioEncode
  apply foldl_preserve BIO_TAGS
  · intro labels m hlab
    apply foldl_preserve BIO_TAGS
    · intro l i hl
      exact set_preserve BIO_TAGS l i _ hl (tagOf_ite_mem m.type i m.start)
    · exact hlab
  · intro x hx
    have := List.eq_of_mem_replicate hx
    subst this
    decide

/-- Claim C4 amended, witnessed at "unhappy": the first label the dataset-layer encoder
produces there is in the vocabulary. -/
theorem c4_amended_closure_witness : "B-PREFIX" ∈ BIO_TAGS :=
  c4_amended_closure "unhappy".toList "B-PREFIX" (by decide)

/-- Claim C5: complexity counts the stripped affixes, confidence equals
1 / (1 + complexity) (modelled in the rationals), lies in the interval (0, 1], and is
strictly decreasing in complexity across any two analysis results. -/
theorem c5_confidence :
    (∀ input : List Char,
        (morpho input).complexity
            = (morpho input).prefixes.length + (morpho input).suffixes.length
        ∧ (morpho input).confidence = 1 / (1 + ((morpho input).complexity : ℚ))
        ∧ 0 < (morpho input).confidence
        ∧ (morpho input).confidence ≤ 1)
    ∧ ∀ a b : List Char, (morpho a).complexity < (morpho b).complexity →
        (morpho b).confidence < (morpho a).confidence := by
  have hconf : ∀ input : List Char,
      (morpho input).confidence = 1 / (1 + ((morpho input).complexity : ℚ)) :=
    fun _ => rfl
  have hpos : ∀ input : List Char, (0 : ℚ) < 1 + ((morpho input).complexity : ℚ) := by
    intro input
    positivity
  constructor
  · intro input
    refine ⟨rfl, hconf input, ?_, ?_⟩
    · rw [hconf input]
      exact div_pos one_pos (hpos input)
    · rw [hconf input, div_le_one (hpos input)]
      have : (0 : ℚ) ≤ ((morpho input).complexity : ℚ) := Nat.cast_nonneg _
      linarith
  · intro a b h
    rw [hconf a, hconf b]
    apply one_div_lt_one_div_of_lt (hpos a)
    have : ((morpho a).complexity : ℚ) < ((morpho b).complexity : ℚ) := by
      exact_mod_cast h
    linarith

/-- Claim C5, witnessed: "cat" has complexity 0 and "unhappy" complexity 1, and the
confidence of "unhappy" is strictly below that of "cat". -/
theorem c5_confidence_witness :
    (morpho "cat".toList).complexity < (morpho "unhappy".toList).complexity
    ∧ (morpho "unhappy".toList).confidence < (morpho "cat".toList).confidence :=
  ⟨by decide, c5_confidence.2 "cat".toList "unhappy".toList (by decide)⟩

/-- Claim C6 counterexample: on "zations" the suffix phase appends "s" (length 1) at a
cursor where the table entry "ations" (length 6) also matches the normalized word —
word.slice(1, 7) equals "ations" with consumedEnd = 7 — but is rejected by the
minimum-root guard; so the appended affix is not a longest matching table entry as the
claim states. -/
theorem c6_counterexample :
    (morpho "zations".toList).suffixes = ["s".toList]
    ∧ "ations".toList ∈ suffixes
    ∧ (morpho "zations".toList).word.length = 7
    ∧ sliceList (morpho "zations".toList).word 1 7 = "ations".toList
    ∧ ("s".toList).length < ("ations".toList).length := by
  refine ⟨by decide, by decide, by decide, by decide, by decide⟩

/-- Claim C6 (amended): at every successful step of the prefix phase the appended affix
is a longest declaration-table entry matching the word at the cursor, ties of equal
length broken by declaration order; at every successful step of the suffix phase the
same holds among the entries that both match and satisfy the minimum-root guard (the
acceptance test of the source). -/
theorem c6_amended_longest_match :
    (∀ (w : List Char) (pos : Nat) (p : List Char), findPrefixAt w pos = some p →
        matchesPrefixAt w pos p = true ∧ p ∈ prefixes
        ∧ ∀ q ∈ prefixes, matchesPrefixAt w pos q = true →
            q.length < p.length
            ∨ (q.length = p.length
                ∧ List.indexOf p prefixes ≤ List.indexOf q prefixes))
    ∧ (∀ (w : List Char) (st ep : Nat) (s : List Char), findSuffixAt w st ep = some s →
        suffixAccept w st ep s = true ∧ s ∈ suffixes
        ∧ ∀ q ∈ suffixes, suffixAccept w st ep q = true →
            q.length < s.length
            ∨ (q.length = s.length
                ∧ List.indexOf s suffixes ≤ List.indexOf q suffixes)) := by
  constructor
  · intro w pos p h
    unfold findPrefixAt at h
    obtain ⟨hP, hall⟩ :=
      find?_first (declRel prefixes) sortedPrefixes sortedPrefixes_pairwise
        (matchesPrefixAt w pos) p h
    refine ⟨hP, mem_prefixes_of_mem_sorted p (find?_pred _ _ _ h).2, ?_⟩
    intro q hq hmq
    rcases hall q (mem_sortedPrefixes_of_mem q hq) hmq with rfl | hrel
    · exact Or.inr ⟨rfl, Nat.le_refl _⟩
    · unfold declRel at hrel
      exact hrel
  · intro w st ep s h
    unfold findSuffixAt at h
    obtain ⟨hP, hall⟩ :=
      find?_first (declRel suffixes) sortedSuffixes sortedSuffixes_pairwise
        (suffixAccept w st ep) s h
    refine ⟨hP, mem_suffixes_of_mem_sorted s (find?_pred _ _ _ h).2, ?_⟩
    intro q hq hmq
    rcases hall q (mem_sortedSuffixes_of_mem q hq) hmq with rfl | hrel
    · exact Or.inr ⟨rfl, Nat.le_refl _⟩
    · unfold declRel at hrel
      exact hrel

/-- Claim C6 amended, witnessed: the prefix step on "under" at cursor 0 finds a table
entry, and the suffix step on "running" at cursors 0 and 7 accepts its match. -/
theorem c6_amended_longest_match_witness :
    "under".toList ∈ prefixes
    ∧ suffixAccept "running".toList 0 7 "ing".toList = true :=
  ⟨(c6_amended_longest_match.1 "under".toList 0 "under".toList (by decide)).2.1,
   (c6_amended_longest_match.2 "running".toList 0 7 "ing".toList (by decide)).1⟩

/-- Claim C7: a suffix candidate is accepted only if its start index lies at least two
characters past the left cursor, and consequently on every input with at least one
stripped suffix the pre-repair root region spans at least two characters. -/
theorem c7_min_root_guard :
    (∀ (w : List Char) (st ep : Nat) (s : List Char), findSuffixAt w st ep = some s →
        st + 2 ≤ ep - s.length)
    ∧ ∀ input : List Char, (morpho input).suffixes ≠ [] →
        consumedStartOf (normalize input) + 2 ≤ consumedEndOf (normalize input) := by
  constructor
  · intro w st ep s h
    obtain ⟨hacc, _⟩ := findSuffixAt_some h
    obtain ⟨hguard, _⟩ := suffixAccept_guard hacc
    omega
  · intro input h
    exact stripSuffixes_guard (normalize input) (consumedStartOf (normalize input))
      ((normalize input).length + 1) (normalize input).length h

/-- Claim C7, witnessed at "running": one suffix is stripped and the pre-repair root
region [0, 4) spans at least two characters; the accepted candidate "ing" at cursor 7
starts at index 4, at least two characters past the left cursor 0. -/
theorem c7_min_root_guard_witness :
    consumedStartOf (normalize "running".toList) + 2
        ≤ consumedEndOf (normalize "running".toList)
    ∧ 0 + 2 ≤ 7 - ("ing".toList).length :=
  ⟨c7_min_root_guard.2 "running".toList (by decide),
   c7_min_root_guard.1 "running".toList 0 7 "ing".toList (by decide)⟩

/-- Claim C8: morpho is a total Lean function (defined for every input, as the source
analyze succeeds for every string), and every input whose normalized form is empty —
including the empty string itself — yields the empty word with a single empty-text Root
span starting and ending at 0, zero complexity and confidence 1. -/
theorem c8_total_empty (input : List Char) (h : normalize input = []) :
    (morpho input).word = []
    ∧ (morpho input).prefixes = []
    ∧ (morpho input).root = []
    ∧ (morpho input).suffixes = []
    ∧ (morpho input).morphemes = [⟨MType.root, [], 0, 0⟩]
    ∧ (morpho input).complexity = 0
    ∧ (morpho input).confidence = 1 := by
  refine ⟨h, ?_, ?_, ?_, ?_, ?_, ?_⟩
  · show foundPrefixesOf (normalize input) = []
    rw [h]
    decide
  · show rootOf (normalize input) = []
    rw [h]
    decide
  · show foundSuffixesOf (normalize input) = []
    rw [h]
    decide
  · show morphemesOf (normalize input) = [⟨MType.root, [], 0, 0⟩]
    rw [h]
    decide
  · show (foundPrefixesOf (normalize input)).length
        + (foundSuffixesOf (normalize input)).length = 0
    rw [h]
    decide
  · show (1 : ℚ) / (1 + (((foundPrefixesOf (normalize input)).length
        + (foundSuffixesOf (normalize input)).length : Nat) : ℚ)) = 1
    rw [h]
    have h0 : ((foundPrefixesOf ([] : List Char)).length
        + (foundSuffixesOf ([] : List Char)).length : Nat) = 0 := by decide
    rw [h0]
    norm_num

/-- Claim C8, witnessed: a whitespace-only input normalizes to the empty word and
produces the single empty Root span. -/
theorem c8_total_empty_witness :
    normalize "  ".toList = []
    ∧ (morpho "  ".toList).morphemes = [⟨MType.root, [], 0, 0⟩] :=
  ⟨by decide, (c8_total_empty "  ".toList (by decide)).2.2.2.2.1⟩

/-- Claim C9: both greedy phases terminate within the word-length budget: the affix
counts are bounded by the normalized word length, every successful match strictly
advances its cursor (rootStart grows, rootEnd shrinks), and any fuel above the word
length yields the very answer morpho computes — the loops have reached their exit. -/
theorem c9_termination (input : List Char) :
    (morpho input).prefixes.length ≤ (normalize input).length
    ∧ (morpho input).suffixes.length ≤ (normalize input).length
    ∧ (∀ (f pos : Nat), (stripPrefixes (normalize input) f pos).1 ≠ [] →
        pos < (stripPrefixes (normalize input) f pos).2)
    ∧ (∀ (f ep : Nat),
        (stripSuffixes (normalize input) (consumedStartOf (normalize input)) f ep).1 ≠ [] →
        (stripSuffixes (normalize input) (consumedStartOf (normalize input)) f ep).2 < ep)
    ∧ (∀ f : Nat, (normalize input).length < f →
        stripPrefixes (normalize input) f 0
          = stripPrefixes (normalize input) ((normalize input).length + 1) 0)
    ∧ (∀ f : Nat, (normalize input).length < f →
        stripSuffixes (normalize input) (consumedStartOf (normalize input)) f
            (normalize input).length
          = stripSuffixes (normalize input) (consumedStartOf (normalize input))
              ((normalize input).length + 1) (normalize input).length) := by
  refine ⟨?_, ?_, ?_, ?_, ?_, ?_⟩
  · have hmem : ∀ p ∈ (stripPrefixes (normalize input) ((normalize input).length + 1) 0).1,
        0 < p.length := fun p hp =>
      sortedPrefixes_pos p (stripPrefixes_mem (normalize input) _ 0 p hp)
    have hcount := length_le_sum_of_pos _ hmem
    have hsum := stripPrefixes_sum (normalize input) ((normalize input).length + 1) 0
    have hle := stripPrefixes_le (normalize input) ((normalize input).length + 1) 0
      (Nat.zero_le _)
    show (foundPrefixesOf (normalize input)).length ≤ (normalize input).length
    unfold foundPrefixesOf
    omega
  · have hmem : ∀ s ∈ (stripSuffixes (normalize input) (consumedStartOf (normalize input))
        ((normalize input).length + 1) (normalize input).length).1,
        0 < s.length := fun s hs =>
      sortedSuffixes_pos s (stripSuffixes_mem (normalize input) _ _ _ s hs)
    have hcount := length_le_sum_of_pos _ hmem
    have hsum := stripSuffixes_sum (normalize input) (consumedStartOf (normalize input))
      ((normalize input).length + 1) (normalize input).length
    show (foundSuffixesOf (normalize input)).length ≤ (normalize input).length
    unfold foundSuffixesOf
    omega
  · intro f pos h
    cases f with
    | zero => exact absurd rfl h
    | succ f =>
      simp only [stripPrefixes] at h ⊢
      cases hf : findPrefixAt (normalize input) pos with
      | none => rw [hf] at h; simp at h
      | some p =>
        simp only []
        obtain ⟨_, hmem⟩ := findPrefixAt_some hf
        have hpos := sortedPrefixes_pos p hmem
        have hge := stripPrefixes_ge (normalize input) f (pos + p.length)
        omega
  · intro f ep h
    cases f with
    | zero => exact absurd rfl h
    | succ f =>
      simp only [stripSuffixes] at h ⊢
      cases hf : findSuffixAt (normalize input) (consumedStartOf (normalize input)) ep with
      | none => rw [hf] at h; simp at h
      | some s =>
        simp only []
        obtain ⟨hacc, hmem⟩ := findSuffixAt_some hf
        obtain ⟨hguard, _⟩ := suffixAccept_guard hacc
        have hpos := sortedSuffixes_pos s hmem
        have hle := stripSuffixes_le (normalize input) (consumedStartOf (normalize input))
          f (ep - s.length)
        omega
  · intro f hf
    exact stripPrefixes_fuel (normalize input) f ((normalize input).length + 1) 0
      (by omega) (by omega)
  · intro f hf
    exact stripSuffixes_fuel (normalize input) (consumedStartOf (normalize input)) f
      ((normalize input).length + 1) (normalize input).length (by omega) (by omega)

/-- Claim C9, witnessed at "running": affix counts are within the length bound, extra
fuel does not change the prefix scan, and the nonempty suffix scan strictly lowered its
cursor. -/
theorem c9_termination_witness :
    (morpho "running".toList).prefixes.length ≤ (normalize "running".toList).length
    ∧ stripPrefixes (normalize "running".toList) 9 0
        = stripPrefixes (normalize "running".toList) 8 0
    ∧ (stripSuffixes (normalize "running".toList)
        (consumedStartOf (normalize "running".toList)) 8 7).2 < 7 :=
  ⟨(c9_termination "running".toList).1,
   (c9_termination "running".toList).2.2.2.2.1 9 (by decide),
   (c9_termination "running".toList).2.2.2.1 8 7 (by decide)⟩

/-- Claim C10: the nonempty input "under" (a table prefix itself, normalized word of
length 5) is entirely consumed by the prefix phase: morpho returns one prefix, an empty
root and no suffixes — the prefix phase has no minimum-root guard. -/
theorem c10_empty_root_from_prefixes :
    (morpho "under".toList).word.length = 5
    ∧ (morpho "under".toList).prefixes = ["under".toList]
    ∧ (morpho "under".toList).root = []
    ∧ (morpho "under".toList).suffixes = [] := by
  refine ⟨by decide, by decide, by decide, by decide⟩

end LLE
